import Mathlib

/-!
Shallow embedding of the `seqnum` crate (`src/lib.rs`): RFC 1982
sequence-number arithmetic over an N-bit counter stored in a `w`-bit
unsigned integer.  Storage values are natural numbers below `2 ^ w`;
wrapping operations are explicit `% 2 ^ w` arithmetic.  `bits` is the
logical width (the `BITS` const generic), with the contract
`1 ≤ bits ≤ w`.
-/

namespace SeqNum

/-- `Storage::wrapping_add` on a `w`-bit unsigned integer. -/
def wrappingAdd (w a b : Nat) : Nat := (a + b) % 2 ^ w

/-- `Storage::wrapping_sub` on a `w`-bit unsigned integer, for
representable inputs `a b < 2 ^ w`. -/
def wrappingSub (w a b : Nat) : Nat := (2 ^ w + a - b) % 2 ^ w

/-- `UInt::shl`, implemented in the source as `wrapping_shl`: the shift
amount is reduced mod the width, and the result wraps. -/
def shl (w a amt : Nat) : Nat := (a <<< (amt % w)) % 2 ^ w

/-- `SequenceInt::is_full_width`: whether `BITS` equals the storage width. -/
def isFullWidth (w bits : Nat) : Bool := bits == w

/-- `SequenceInt::mod_mask`: `T::MAX` in the full-width case, otherwise
`(1 << BITS) - 1` computed with the wrapping primitives. -/
def modMask (w bits : Nat) : Nat :=
  if isFullWidth w bits then 2 ^ w - 1
  else wrappingSub w (shl w 1 bits) 1

/-- `SequenceInt::half_range`: `1 << (BITS - 1)`. -/
def halfRange (w bits : Nat) : Nat := shl w 1 (bits - 1)

/-- `SequenceInt::mask`: identity at full width, otherwise bitwise AND
with `mod_mask`. -/
def mask (w bits v : Nat) : Nat :=
  if isFullWidth w bits then v else v &&& modMask w bits

/-- `From<T>::from` for `SequenceInt` (named `fromRaw` because `from` is
reserved): masks the raw storage value. -/
def fromRaw (w bits v : Nat) : Nat := mask w bits v

/-- `SequenceInt::inc`: the payload after `self.0 = mask(self.0.wrapping_add(1))`. -/
def inc (w bits x : Nat) : Nat := mask w bits (wrappingAdd w x 1)

/-- `SequenceInt::dec`: the payload after `self.0 = mask(self.0.wrapping_sub(1))`. -/
def dec (w bits x : Nat) : Nat := mask w bits (wrappingSub w x 1)

/-- `PartialEq::eq` for `SequenceInt`: plain payload equality. -/
def eqSeq (a b : Nat) : Bool := a == b

/-- `Ord::cmp` for `SequenceInt`: `diff = b.wrapping_sub(a)`, masked to
`BITS` bits unless full width, then compared against zero and
`half_range`. -/
def cmp (w bits a b : Nat) : Ordering :=
  let diff0 := wrappingSub w b a
  let diff := if isFullWidth w bits then diff0 else diff0 &&& modMask w bits
  if diff = 0 then Ordering.eq
  else if diff < halfRange w bits then Ordering.lt
  else Ordering.gt

/-- `Add<T>::add` for `SequenceInt`: wrapping add of a raw offset, then mask. -/
def addOffset (w bits x k : Nat) : Nat := mask w bits (wrappingAdd w x k)

/-- `Sub<T>::sub` for `SequenceInt`: wrapping subtract of a raw offset, then mask. -/
def subOffset (w bits x k : Nat) : Nat := mask w bits (wrappingSub w x k)

/-- The ordering rule exactly as the spec words it: `diff = (b - a) mod
2 ^ BITS`; Equal when zero, Less when strictly below
`HALF_RANGE = 2 ^ (BITS - 1)`, Greater otherwise. -/
def cmpSpec (bits a b : Nat) : Ordering :=
  if (2 ^ bits + b - a) % 2 ^ bits = 0 then Ordering.eq
  else if (2 ^ bits + b - a) % 2 ^ bits < 2 ^ (bits - 1) then Ordering.lt
  else Ordering.gt

/-- The debug assertions in `mod_mask` require `1 <= BITS <= T::BITS`;
`fromChecked` models construction failing exactly when they fail. -/
def fromChecked (w bits v : Nat) : Option Nat :=
  if 1 ≤ bits ∧ bits ≤ w then some (fromRaw w bits v) else none

/-- `cmp` guarded by the `BITS`-validity debug assertions. -/
def cmpChecked (w bits a b : Nat) : Option Ordering :=
  if 1 ≤ bits ∧ bits ≤ w then some (cmp w bits a b) else none

/-- `inc` guarded by the `BITS`-validity debug assertions. -/
def incChecked (w bits x : Nat) : Option Nat :=
  if 1 ≤ bits ∧ bits ≤ w then some (inc w bits x) else none

/-- `dec` guarded by the `BITS`-validity debug assertions. -/
def decChecked (w bits x : Nat) : Option Nat :=
  if 1 ≤ bits ∧ bits ≤ w then some (dec w bits x) else none

/-- Offset addition guarded by the `BITS`-validity debug assertions. -/
def addChecked (w bits x k : Nat) : Option Nat :=
  if 1 ≤ bits ∧ bits ≤ w then some (addOffset w bits x k) else none

/-- Offset subtraction guarded by the `BITS`-validity debug assertions. -/
def subChecked (w bits x k : Nat) : Option Nat :=
  if 1 ≤ bits ∧ bits ≤ w then some (subOffset w bits x k) else none

/- Helper lemmas -/

theorem modMask_eq {w bits : Nat} (h2 : bits ≤ w) : modMask w bits = 2 ^ bits - 1 := by
  unfold modMask isFullWidth
  rcases eq_or_lt_of_le h2 with heq | hlt
  · simp [heq]
  · have hne : (bits == w) = false := by simp [Nat.ne_of_lt hlt]
    rw [hne]
    simp only [Bool.false_eq_true, if_false]
    unfold wrappingSub shl
    have hmod : bits % w = bits := Nat.mod_eq_of_lt hlt
    have hpow : 2 ^ bits < 2 ^ w := Nat.pow_lt_pow_right (by omega) hlt
    rw [hmod, Nat.shiftLeft_eq, one_mul, Nat.mod_eq_of_lt hpow]
    have h1 : 0 < 2 ^ bits := Nat.pos_pow_of_pos bits (by omega)
    have : 2 ^ w + 2 ^ bits - 1 = 2 ^ w + (2 ^ bits - 1) := by omega
    rw [this, Nat.add_mod_left, Nat.mod_eq_of_lt (by omega)]

theorem halfRange_eq {w bits : Nat} (h1 : 1 ≤ bits) (h2 : bits ≤ w) :
    halfRange w bits = 2 ^ (bits - 1) := by
  unfold halfRange shl
  have hlt : bits - 1 < w := by omega
  have hpow : 2 ^ (bits - 1) < 2 ^ w := Nat.pow_lt_pow_right (by omega) hlt
  rw [Nat.mod_eq_of_lt hlt, Nat.shiftLeft_eq, one_mul, Nat.mod_eq_of_lt hpow]

theorem mask_eq_mod {w bits v : Nat} (h2 : bits ≤ w) (hv : v < 2 ^ w) :
    mask w bits v = v % 2 ^ bits := by
  unfold mask isFullWidth
  rcases eq_or_lt_of_le h2 with heq | hlt
  · subst heq
    simp [Nat.mod_eq_of_lt hv]
  · have hne : (bits == w) = false := by simp [Nat.ne_of_lt hlt]
    rw [hne]
    simp only [Bool.false_eq_true, if_false]
    rw [modMask_eq h2, Nat.and_pow_two_sub_one_eq_mod]

theorem wrappingSub_lt {w a b : Nat} : wrappingSub w a b < 2 ^ w := by
  unfold wrappingSub
  exact Nat.mod_lt _ (Nat.pos_pow_of_pos w (by omega))

theorem wrappingAdd_lt {w a b : Nat} : wrappingAdd w a b < 2 ^ w := by
  unfold wrappingAdd
  exact Nat.mod_lt _ (Nat.pos_pow_of_pos w (by omega))

theorem wrappingSub_mod {w bits a b : Nat} (h2 : bits ≤ w)
    (ha : a < 2 ^ bits) (hb : b < 2 ^ bits) :
    wrappingSub w a b % 2 ^ bits = (2 ^ bits + a - b) % 2 ^ bits := by
  unfold wrappingSub
  have hdvd : 2 ^ bits ∣ 2 ^ w := pow_dvd_pow 2 h2
  rw [Nat.mod_mod_of_dvd _ hdvd]
  obtain ⟨c, hc⟩ := hdvd
  have hle : 2 ^ bits ≤ 2 ^ w := Nat.le_of_dvd (Nat.pos_pow_of_pos w (by omega)) ⟨c, hc⟩
  have hsplit : 2 ^ w + a - b = (2 ^ w - 2 ^ bits) + (2 ^ bits + a - b) := by omega
  have hdvd2 : 2 ^ bits ∣ 2 ^ w - 2 ^ bits := Nat.dvd_sub' ⟨c, hc⟩ dvd_rfl
  obtain ⟨d, hd⟩ := hdvd2
  rw [hsplit, hd, Nat.mul_add_mod]

theorem cmp_eq_cmpSpec {w bits a b : Nat} (h1 : 1 ≤ bits) (h2 : bits ≤ w)
    (ha : a < 2 ^ bits) (hb : b < 2 ^ bits) :
    cmp w bits a b = cmpSpec bits a b := by
  unfold cmp cmpSpec
  have hdiff : (if isFullWidth w bits then wrappingSub w b a
      else wrappingSub w b a &&& modMask w bits) = (2 ^ bits + b - a) % 2 ^ bits := by
    unfold isFullWidth
    rcases eq_or_lt_of_le h2 with heq | hlt
    · subst heq
      simp only [beq_self_eq_true, if_true]
      unfold wrappingSub
      exact rfl
    · have hne : (bits == w) = false := by simp [Nat.ne_of_lt hlt]
      rw [hne]
      simp only [Bool.false_eq_true, if_false]
      rw [modMask_eq h2, Nat.and_pow_two_sub_one_eq_mod]
      exact wrappingSub_mod h2 hb ha
  simp only [hdiff, halfRange_eq h1 h2]

theorem mask_lt {w bits v : Nat} (h2 : bits ≤ w) (hv : v < 2 ^ w) :
    mask w bits v < 2 ^ bits := by
  rw [mask_eq_mod h2 hv]
  exact Nat.mod_lt _ (Nat.pos_pow_of_pos bits (by omega))

theorem wsub_reverse {n a b : Nat} (ha : a < n) (hb : b < n)
    (hne : (n + b - a) % n ≠ 0) :
    (n + a - b) % n = n - (n + b - a) % n := by
  rcases le_or_lt a b with hab | hab
  · have e1 : n + b - a = n + (b - a) := by omega
    rw [e1, Nat.add_mod_left, Nat.mod_eq_of_lt (by omega : b - a < n)] at hne ⊢
    rw [Nat.mod_eq_of_lt (by omega : n + a - b < n)]
    omega
  · have e1 : n + a - b = n + (a - b) := by omega
    rw [e1, Nat.add_mod_left, Nat.mod_eq_of_lt (by omega : a - b < n)]
    rw [Nat.mod_eq_of_lt (by omega : n + b - a < n)] at hne ⊢
    omega

/- Claim theorems -/

/-- C1: for every valid `(Storage, BITS)` and every pair of sequence
numbers `a`, `b` of that instantiation, `cmp a b` equals the spec
formula (diff by wrapping subtraction masked to `BITS` bits, then
compared against zero and `HALF_RANGE`); and the four concrete 16-bit
wraparound-ordering cases hold. -/
theorem seq_cmp_algorithm (w bits a b : Nat) (h1 : 1 ≤ bits) (h2 : bits ≤ w)
    (ha : a < 2 ^ bits) (hb : b < 2 ^ bits) :
    cmp w bits a b = cmpSpec bits a b ∧
    cmp 16 16 (fromRaw 16 16 1000) (fromRaw 16 16 999) = Ordering.gt ∧
    cmp 16 16 (fromRaw 16 16 65530) (fromRaw 16 16 10) = Ordering.lt ∧
    cmp 16 16 (fromRaw 16 16 1000) (fromRaw 16 16 33000) = Ordering.lt ∧
    cmp 16 16 (fromRaw 16 16 1000) (fromRaw 16 16 34000) = Ordering.gt :=
  ⟨cmp_eq_cmpSpec h1 h2 ha hb, by decide, by decide, by decide, by decide⟩

/-- C1 witness: the comparison algorithm theorem instantiated at a
concrete valid input. -/
theorem seq_cmp_algorithm_witness :
    cmp 16 16 3 5 = cmpSpec 16 3 5 ∧
    cmp 16 16 (fromRaw 16 16 1000) (fromRaw 16 16 999) = Ordering.gt ∧
    cmp 16 16 (fromRaw 16 16 65530) (fromRaw 16 16 10) = Ordering.lt ∧
    cmp 16 16 (fromRaw 16 16 1000) (fromRaw 16 16 33000) = Ordering.lt ∧
    cmp 16 16 (fromRaw 16 16 1000) (fromRaw 16 16 34000) = Ordering.gt :=
  seq_cmp_algorithm 16 16 3 5 (by decide) (by decide) (by decide) (by decide)

/-- C2: when the masked wrapping difference `(b - a) mod 2 ^ BITS` is
exactly `HALF_RANGE = 2 ^ (BITS - 1)`, `cmp a b` returns Greater. -/
theorem seq_cmp_tie_greater (w bits a b : Nat) (h1 : 1 ≤ bits) (h2 : bits ≤ w)
    (ha : a < 2 ^ bits) (hb : b < 2 ^ bits)
    (hd : (2 ^ bits + b - a) % 2 ^ bits = 2 ^ (bits - 1)) :
    cmp w bits a b = Ordering.gt := by
  rw [cmp_eq_cmpSpec h1 h2 ha hb]
  unfold cmpSpec
  have hpos : 0 < 2 ^ (bits - 1) := Nat.pos_pow_of_pos _ (by omega)
  rw [hd, if_neg (by omega), if_neg (by omega)]

/-- C2 witness: the antipodal tie at 16 bits resolves to Greater. -/
theorem seq_cmp_tie_greater_witness : cmp 16 16 0 32768 = Ordering.gt :=
  seq_cmp_tie_greater 16 16 0 32768 (by decide) (by decide) (by decide)
    (by decide) (by decide)

/-- C3: `cmp` is total on any pair (it returns exactly one of Equal,
Less, Greater), yet the relation admits a strict cycle: at 16 bits the
values 0, 21845, 43690 (about one third of the ring apart) satisfy
a < b, b < c and c < a. -/
theorem seq_cmp_total_and_cyclic :
    (∀ w bits a b : Nat,
      (cmp w bits a b = Ordering.eq ∧ cmp w bits a b ≠ Ordering.lt ∧
        cmp w bits a b ≠ Ordering.gt) ∨
      (cmp w bits a b = Ordering.lt ∧ cmp w bits a b ≠ Ordering.eq ∧
        cmp w bits a b ≠ Ordering.gt) ∨
      (cmp w bits a b = Ordering.gt ∧ cmp w bits a b ≠ Ordering.eq ∧
        cmp w bits a b ≠ Ordering.lt)) ∧
    cmp 16 16 0 21845 = Ordering.lt ∧
    cmp 16 16 21845 43690 = Ordering.lt ∧
    cmp 16 16 43690 0 = Ordering.lt := by
  refine ⟨fun w bits a b => ?_, by decide, by decide, by decide⟩
  cases h : cmp w bits a b with
  | lt => exact Or.inr (Or.inl ⟨rfl, by simp, by simp⟩)
  | eq => exact Or.inl ⟨rfl, by simp, by simp⟩
  | gt => exact Or.inr (Or.inr ⟨rfl, by simp, by simp⟩)

/-- C4: masking invariant. The payload of `from v` is fixed by a bitwise
AND with `MOD_MASK` and has no set bits at position `≥ BITS`, and every
operation producing a new value (`from`, `inc`, `dec`, offset add,
offset sub) yields a payload below `2 ^ BITS`. -/
theorem seq_masking_invariant (w bits v x k : Nat) (h1 : 1 ≤ bits)
    (h2 : bits ≤ w) (hv : v < 2 ^ w) (hx : x < 2 ^ bits) (hk : k < 2 ^ w) :
    fromRaw w bits v = fromRaw w bits v &&& modMask w bits ∧
    fromRaw w bits v < 2 ^ bits ∧
    inc w bits x < 2 ^ bits ∧
    dec w bits x < 2 ^ bits ∧
    addOffset w bits x k < 2 ^ bits ∧
    subOffset w bits x k < 2 ^ bits := by
  have hfrom : fromRaw w bits v < 2 ^ bits := mask_lt h2 hv
  refine ⟨?_, hfrom, mask_lt h2 wrappingAdd_lt, mask_lt h2 wrappingSub_lt,
    mask_lt h2 wrappingAdd_lt, mask_lt h2 wrappingSub_lt⟩
  rw [modMask_eq h2, Nat.and_pow_two_sub_one_eq_mod, Nat.mod_eq_of_lt hfrom]

/-- C4 witness: the masking invariant at a 24-bit counter in 32-bit
storage, on concrete inputs. -/
theorem seq_masking_invariant_witness :
    fromRaw 32 24 16777226 = fromRaw 32 24 16777226 &&& modMask 32 24 ∧
    fromRaw 32 24 16777226 < 2 ^ 24 ∧
    inc 32 24 7 < 2 ^ 24 ∧
    dec 32 24 7 < 2 ^ 24 ∧
    addOffset 32 24 7 9 < 2 ^ 24 ∧
    subOffset 32 24 7 9 < 2 ^ 24 :=
  seq_masking_invariant 32 24 16777226 7 9 (by decide) (by decide)
    (by decide) (by decide) (by decide)

/-- C5: equality is plain bit-identity of masked payloads:
`from v == from u` iff `mask v = mask u`; it is reflexive; and at 24
bits in 32-bit storage `from 16777226 == from 10`. -/
theorem seq_eq_masked_payload (w bits v u : Nat) :
    (eqSeq (fromRaw w bits v) (fromRaw w bits u) = true ↔
      mask w bits v = mask w bits u) ∧
    eqSeq (fromRaw w bits v) (fromRaw w bits v) = true ∧
    eqSeq (fromRaw 32 24 16777226) (fromRaw 32 24 10) = true := by
  refine ⟨?_, ?_, by decide⟩
  · simp [eqSeq, fromRaw]
  · simp [eqSeq]

/-- C6: `inc` and `dec` are modular successor and predecessor at the
`BITS` boundary, never failing; a 32-bit counter at `0xFFFFFFFE` goes to
`0xFFFFFFFF` and then wraps to `0`. -/
theorem seq_inc_dec_wrap (w bits x : Nat) (h1 : 1 ≤ bits) (h2 : bits ≤ w)
    (hx : x < 2 ^ bits) :
    inc w bits x = (x + 1) % 2 ^ bits ∧
    dec w bits x = (x + (2 ^ bits - 1)) % 2 ^ bits ∧
    inc 32 32 0xFFFFFFFE = 0xFFFFFFFF ∧
    inc 32 32 0xFFFFFFFF = 0 := by
  have hpos : 0 < 2 ^ bits := Nat.pos_pow_of_pos bits (by omega)
  have hdvd : 2 ^ bits ∣ 2 ^ w := pow_dvd_pow 2 h2
  refine ⟨?_, ?_, by decide, by decide⟩
  · unfold inc wrappingAdd
    rw [mask_eq_mod h2 (Nat.mod_lt _ (Nat.pos_pow_of_pos w (by omega))),
      Nat.mod_mod_of_dvd _ hdvd]
  · unfold dec
    rw [mask_eq_mod h2 wrappingSub_lt,
      wrappingSub_mod h2 hx (Nat.one_lt_two_pow (by omega))]
    have e1 : 2 ^ bits + x - 1 = x + (2 ^ bits - 1) := by omega
    rw [e1]

/-- C6 witness: increment and decrement instantiated at a concrete
16-bit sequence number. -/
theorem seq_inc_dec_wrap_witness :
    inc 16 16 5 = (5 + 1) % 2 ^ 16 ∧
    dec 16 16 5 = (5 + (2 ^ 16 - 1)) % 2 ^ 16 ∧
    inc 32 32 0xFFFFFFFE = 0xFFFFFFFF ∧
    inc 32 32 0xFFFFFFFF = 0 :=
  seq_inc_dec_wrap 16 16 5 (by decide) (by decide) (by decide)

/-- C7: offset addition and subtraction are pure modular arithmetic —
wrapping add or subtract on the storage followed by the `BITS` mask —
with the concrete 32-bit and 14-bit cases from the spec. -/
theorem seq_offset_modular (w bits x k : Nat) (h1 : 1 ≤ bits) (h2 : bits ≤ w)
    (hx : x < 2 ^ bits) (hk : k < 2 ^ w) :
    addOffset w bits x k = (x + k) % 2 ^ bits ∧
    subOffset w bits x k = (2 ^ w + x - k) % 2 ^ bits ∧
    addOffset 32 32 (fromRaw 32 32 1000) 7 = fromRaw 32 32 1007 ∧
    addOffset 32 32 (fromRaw 32 32 4294967290) 10 = fromRaw 32 32 4 ∧
    addOffset 32 14 (fromRaw 32 14 (2 ^ 14 - 1)) 2 = fromRaw 32 14 1 := by
  have hdvd : 2 ^ bits ∣ 2 ^ w := pow_dvd_pow 2 h2
  refine ⟨?_, ?_, by decide, by decide, by decide⟩
  · unfold addOffset wrappingAdd
    rw [mask_eq_mod h2 (Nat.mod_lt _ (Nat.pos_pow_of_pos w (by omega))),
      Nat.mod_mod_of_dvd _ hdvd]
  · unfold subOffset wrappingSub
    rw [mask_eq_mod h2 (Nat.mod_lt _ (Nat.pos_pow_of_pos w (by omega))),
      Nat.mod_mod_of_dvd _ hdvd]

/-- C7 witness: offset arithmetic instantiated at a concrete 16-bit
sequence number and offset. -/
theorem seq_offset_modular_witness :
    addOffset 16 16 5 3 = (5 + 3) % 2 ^ 16 ∧
    subOffset 16 16 5 3 = (2 ^ 16 + 5 - 3) % 2 ^ 16 ∧
    addOffset 32 32 (fromRaw 32 32 1000) 7 = fromRaw 32 32 1007 ∧
    addOffset 32 32 (fromRaw 32 32 4294967290) 10 = fromRaw 32 32 4 ∧
    addOffset 32 14 (fromRaw 32 14 (2 ^ 14 - 1)) 2 = fromRaw 32 14 1 :=
  seq_offset_modular 16 16 5 3 (by decide) (by decide) (by decide) (by decide)

/-- C8: at full width (`BITS` equal to the storage width) masking is the
identity, `MOD_MASK` is the all-ones maximum obtained by special case,
and the concrete 64-bit wraparound cases hold. -/
theorem seq_full_width_identity (w v : Nat) :
    mask w w v = v ∧
    fromRaw w w v = v ∧
    modMask w w = 2 ^ w - 1 ∧
    addOffset 64 64 (fromRaw 64 64 (2 ^ 64 - 1)) 2 = fromRaw 64 64 1 ∧
    cmp 64 64 (fromRaw 64 64 (2 ^ 64 - 3)) (fromRaw 64 64 3) = Ordering.lt := by
  refine ⟨?_, ?_, ?_, by decide, by decide⟩
  · simp [mask, isFullWidth]
  · simp [fromRaw, mask, isFullWidth]
  · simp [modMask, isFullWidth]

/-- C9: with a valid `BITS` the debug assertions never fire: every
operation (construction, comparison, increment, decrement, offset add
and subtract) succeeds on all inputs, returning its wrapped value. -/
theorem seq_no_runtime_failure (w bits v a b x k : Nat) (h1 : 1 ≤ bits)
    (h2 : bits ≤ w) :
    fromChecked w bits v = some (fromRaw w bits v) ∧
    cmpChecked w bits a b = some (cmp w bits a b) ∧
    incChecked w bits x = some (inc w bits x) ∧
    decChecked w bits x = some (dec w bits x) ∧
    addChecked w bits x k = some (addOffset w bits x k) ∧
    subChecked w bits x k = some (subOffset w bits x k) := by
  simp [fromChecked, cmpChecked, incChecked, decChecked, addChecked,
    subChecked, h1, h2]

/-- C9 witness: totality of the checked operations at a concrete valid
instantiation. -/
theorem seq_no_runtime_failure_witness :
    fromChecked 16 16 3 = some (fromRaw 16 16 3) ∧
    cmpChecked 16 16 1 2 = some (cmp 16 16 1 2) ∧
    incChecked 16 16 4 = some (inc 16 16 4) ∧
    decChecked 16 16 4 = some (dec 16 16 4) ∧
    addChecked 16 16 4 5 = some (addOffset 16 16 4 5) ∧
    subChecked 16 16 4 5 = some (subOffset 16 16 4 5) :=
  seq_no_runtime_failure 16 16 3 1 2 4 5 (by decide) (by decide)

/-- C10: away from zero and the antipodal difference, swapping the
arguments of `cmp` swaps Less and Greater; when the difference is
exactly `HALF_RANGE`, both orders return Greater, so the relation is
not antisymmetric there. -/
theorem seq_cmp_reverse (w bits a b : Nat) (h1 : 1 ≤ bits) (h2 : bits ≤ w)
    (ha : a < 2 ^ bits) (hb : b < 2 ^ bits) :
    ((2 ^ bits + b - a) % 2 ^ bits ≠ 0 →
      (2 ^ bits + b - a) % 2 ^ bits ≠ 2 ^ (bits - 1) →
      cmp w bits b a = (cmp w bits a b).swap) ∧
    ((2 ^ bits + b - a) % 2 ^ bits = 2 ^ (bits - 1) →
      cmp w bits a b = Ordering.gt ∧ cmp w bits b a = Ordering.gt) := by
  rw [cmp_eq_cmpSpec h1 h2 ha hb, cmp_eq_cmpSpec h1 h2 hb ha]
  unfold cmpSpec
  have hpos : 0 < 2 ^ bits := Nat.pos_pow_of_pos bits (by omega)
  have hhpos : 0 < 2 ^ (bits - 1) := Nat.pos_pow_of_pos _ (by omega)
  have hb1 : bits - 1 + 1 = bits := by omega
  have hh : 2 ^ (bits - 1) * 2 = 2 ^ bits := by rw [← pow_succ, hb1]
  have hdlt : (2 ^ bits + b - a) % 2 ^ bits < 2 ^ bits := Nat.mod_lt _ hpos
  constructor
  · intro hne0 hneh
    have hrev := wsub_reverse ha hb hne0
    have hene0 : (2 ^ bits + a - b) % 2 ^ bits ≠ 0 := by omega
    rcases Nat.lt_or_ge ((2 ^ bits + b - a) % 2 ^ bits) (2 ^ (bits - 1))
        with hlt | hge
    · have hnl : ¬ (2 ^ bits + a - b) % 2 ^ bits < 2 ^ (bits - 1) := by omega
      rw [if_neg hne0, if_pos hlt, if_neg hene0, if_neg hnl]
      rfl
    · have hng : ¬ (2 ^ bits + b - a) % 2 ^ bits < 2 ^ (bits - 1) := by omega
      have hel : (2 ^ bits + a - b) % 2 ^ bits < 2 ^ (bits - 1) := by omega
      rw [if_neg hne0, if_neg hng, if_neg hene0, if_pos hel]
      rfl
  · intro heq
    have hne0 : (2 ^ bits + b - a) % 2 ^ bits ≠ 0 := by omega
    have hrev := wsub_reverse ha hb hne0
    have heeq : (2 ^ bits + a - b) % 2 ^ bits = 2 ^ (bits - 1) := by omega
    rw [if_neg hne0, if_neg (by omega), if_neg (by omega), if_neg (by omega)]
    exact ⟨rfl, rfl⟩

/-- C10 witness: at the 16-bit antipodal pair both comparison orders
return Greater. -/
theorem seq_cmp_reverse_witness :
    cmp 16 16 0 32768 = Ordering.gt ∧ cmp 16 16 32768 0 = Ordering.gt :=
  (seq_cmp_reverse 16 16 0 32768 (by decide) (by decide) (by decide)
    (by decide)).2 (by decide)

end SeqNum
